import Mathlib

/-!
Verification of the DCS (Digital Coded Squelch) decoder:
Golay (23,12) syndrome decoding, the syndrome table, the streaming
bit-clock / window / confirmation pipeline, and the squelch gate wrapper.

Shallow embedding conventions:
* C `uint32_t` arithmetic is modelled on `ℕ` with explicit masks
  (all words of interest stay below `2 ^ 23`, far from overflow).
* C `float` state (filter, clock) is modelled on `ℚ`; the two
  construction-time constants `lp_alpha = 1 - exp (-2π·300/fs)` and
  `samples_per_bit = fs / 134.4` are transcendental functions of the
  sample rate and are therefore carried as parameters of the state.
* The callback/context pair is modelled by returning the list of
  (code, inverted) invocations an attached callback would receive.
* The per-instance syndrome table is a pure function of compile-time
  constants; it is modelled once as `build_syndrome_table`.
-/

/-! ### Golay (23,12) constants and syndrome (dcs_decode.cc lines 31-63) -/

def GOLAY_POLY : ℕ := 0xC75

def GOLAY_SYN_INVALID : ℕ := 0xFFFFFFFF

/-- One iteration of the division loop body of `golay_syndrome`:
`if ((reg >> i) & 1) reg ^= GOLAY_POLY << (i - 11);`. -/
def golayStep (reg : ℕ) (i : ℕ) : ℕ :=
  if reg.testBit i then reg ^^^ (GOLAY_POLY <<< (i - 11)) else reg

/-- The loop `for (i = 22; i >= 11; i--)`, by remaining iteration count:
fuel `n+1` performs the body at `i = 11 + n` then continues. -/
def golayDivLoop : ℕ → ℕ → ℕ
  | reg, 0 => reg
  | reg, n + 1 => golayDivLoop (golayStep reg (11 + n)) n

/-- `golay_syndrome` from dcs_decode.cc: mask the word to 23 bits,
do polynomial long division for `i = 22 .. 11`, return the low 11 bits. -/
def golay_syndrome (word : ℕ) : ℕ :=
  golayDivLoop (word &&& 0x7FFFFF) 12 &&& 0x7FF

/-! ### The syndrome table (dcs_decode.cc lines 71-104) -/

/-- The 1-bit error patterns, in the order of the `for (i)` loop. -/
def weight1 : List ℕ := (List.range 23).map (fun i => 1 <<< i)

/-- The 2-bit error patterns, in the order of the `for (i) for (j = i+1)` loops. -/
def weight2 : List ℕ :=
  (List.range 23).flatMap (fun i =>
    ((List.range 23).filter (fun j => i < j)).map (fun j =>
      (1 <<< i) ||| (1 <<< j)))

/-- The 3-bit error patterns, in the order of the three nested loops. -/
def weight3 : List ℕ :=
  (List.range 23).flatMap (fun i =>
    ((List.range 23).filter (fun j => i < j)).flatMap (fun j =>
      ((List.range 23).filter (fun k => j < k)).map (fun k =>
        (1 <<< i) ||| (1 <<< j) ||| (1 <<< k))))

/-- All error patterns of weight 1..3 in table-construction order. -/
def allErr : List ℕ := weight1 ++ weight2 ++ weight3

/-- All 2048 correctable patterns (weight 0..3) in table-construction order. -/
def allPatterns : List ℕ := 0 :: allErr

/-- Read `tbl[s]` (out-of-range reads never occur; the sentinel is the default). -/
def tblGet (t : Array ℕ) (s : ℕ) : ℕ := t.getD s GOLAY_SYN_INVALID

/-- The loop body shared by the three construction loops:
`s = golay_syndrome(e); if (tbl[s] == GOLAY_SYN_INVALID) tbl[s] = e;`. -/
def tblInsert (t : Array ℕ) (e : ℕ) : Array ℕ :=
  if tblGet t (golay_syndrome e) = GOLAY_SYN_INVALID then
    t.setD (golay_syndrome e) e
  else t

/-- `build_syndrome_table` from dcs_decode.cc: fill with the sentinel,
set entry 0 to the zero pattern, then insert the 1-, 2- and 3-bit
patterns first-writer-wins. -/
def build_syndrome_table : Array ℕ :=
  let t0 := Array.mkArray 2048 GOLAY_SYN_INVALID
  let t1 := t0.setD 0 0
  let t2 := weight1.foldl tblInsert t1
  let t3 := weight2.foldl tblInsert t2
  weight3.foldl tblInsert t3

/-! ### Recognized DCS codes (dcs_decode.cc lines 31-45, 106-112) -/

/-- The literal `DCS_VALID_CODES` table (105 entries). -/
def DCS_VALID_CODES : List ℕ :=
  [ 19,  21,  22,  25,  26,  30,  35,  39,  41,  43,  44,  53,
    57,  58,  59,  60,
    76,  77,  78,  82,  85,  89,  90,  92,  99, 101, 106, 109,
   110, 114, 117, 122, 124,
   133, 138, 140, 147, 149, 150, 163, 164, 165, 166, 169, 170,
   173, 177, 179, 181, 182, 185, 188,
   198, 201, 205, 213, 217, 218, 227, 230, 233, 238, 244, 245, 249,
   265, 266, 267, 275, 281, 282, 293, 294, 298, 300, 301, 306, 308,
   309, 310,
   323, 326, 334, 339, 342, 346, 358, 373,
   390, 394, 404, 407, 409, 410, 428, 434, 436,
   451, 458, 467, 473, 474, 476, 483, 492 ]

/-- `is_valid_dcs_code`: linear scan comparing each table entry with
`(uint16_t)code` (the cast is `% 65536`). -/
def is_valid_dcs_code (code : ℕ) : Bool :=
  DCS_VALID_CODES.any (fun v => v == code % 65536)

/-! ### Golay decode of one candidate word (dcs_decode.cc lines 119-133) -/

/-- `try_decode_word`: syndrome lookup, correction, systematic-data
extraction, zero-top-bits check and recognized-code check.  The C
out-parameters and return flag become an `Option (code, inverted)`. -/
def try_decode_word (word : ℕ) (polarity_inv : Bool) : Option (ℕ × Bool) :=
  let s := golay_syndrome word
  if s < 2048 ∧ tblGet build_syndrome_table s ≠ GOLAY_SYN_INVALID then
    let corrected := word ^^^ tblGet build_syndrome_table s
    let data := (corrected >>> 11) &&& 0xFFF
    if data &&& 0xE00 = 0 ∧ is_valid_dcs_code data then
      some (data, polarity_inv)
    else none
  else none

/-- `(~w) & 0x7FFFFF` on a `uint32_t` window: 32-bit complement, masked
to 23 bits. -/
def compl23 (w : ℕ) : ℕ := (0xFFFFFFFF ^^^ w) &&& 0x7FFFFF

/-- The candidate cascade at a bit boundary (dcs_decode.cc lines 259-268):
`window_a`, its masked complement, `window_b`, its masked complement,
first success wins; complements carry `polarity_inv = true`. -/
def tryFour (wa wb : ℕ) : Option (ℕ × Bool) :=
  match try_decode_word wa false with
  | some r => some r
  | none =>
    match try_decode_word (compl23 wa) true with
    | some r => some r
    | none =>
      match try_decode_word wb false with
      | some r => some r
      | none => try_decode_word (compl23 wb) true

/-- The four candidates tried at a bit boundary, in program order, each
paired with the polarity flag its decode would report. -/
def candidateList (wa wb : ℕ) : List (ℕ × Bool) :=
  [(wa, false), (compl23 wa, true), (wb, false), (compl23 wb, true)]

/-- Hamming weight of a 23-bit word. -/
def hweight (n : ℕ) : ℕ := ((List.range 23).filter (fun i => n.testBit i)).length

/-- Systematic Golay encoding of a 12-bit message, as described by the
spec: the message occupies bits 22..11 and bits 10..0 hold the remainder
of `m·x^11` divided by the generator `0xC75`.  `golay_syndrome (m <<< 11)`
computes exactly that remainder: the input's low 11 bits are zero, so the
division loop reduces `m·x^11` and returns the 11-bit remainder. -/
def golay_encode (m : ℕ) : ℕ := (m <<< 11) ||| golay_syndrome (m <<< 11)

/-! ### Decoder state (dcs_decode.cc lines 138-168) -/

/-- The `struct dcs_decoder` fields.  `float` state is `ℚ`; `lp_alpha`
and `samples_per_bit` are the construction-time constants (transcendental
functions of the sample rate, carried as values).  The per-instance
syndrome table is the constant `build_syndrome_table`, and the callback
pair is replaced by returning emitted events. -/
structure dcs_decoder where
  lp_alpha : ℚ
  lp_state : ℚ
  lp_prev : ℚ
  samples_per_bit : ℚ
  bit_phase : ℚ
  bit_accum : ℚ
  window_a : ℕ
  window_b : ℕ
  last_code : ℤ
  last_inverted : Bool
  confirm_count : ℤ

/-- `dcs_decoder_new` (lines 174-200), parameterized by the two derived
constants `lp_alpha = 1 - exp (-2π·300/fs)` and `samples_per_bit = fs / 134.4`. -/
def dcs_decoder_new (lp_alpha samples_per_bit : ℚ) : dcs_decoder :=
  { lp_alpha := lp_alpha
    lp_state := 0
    lp_prev := 0
    samples_per_bit := samples_per_bit
    bit_phase := 0
    bit_accum := 0
    window_a := 0
    window_b := 0
    last_code := -1
    last_inverted := false
    confirm_count := 0 }

/-- The confirmation update at a bit boundary (lines 270-289): on a
match increment the counter and fire at `== 2` and at `> 2`; on a
different valid decode reset to 1; on no decode decrement toward zero.
The returned list holds the callback invocations. -/
def confirmStep (found : Option (ℕ × Bool)) (d : dcs_decoder) :
    dcs_decoder × List (ℕ × Bool) :=
  match found with
  | some (code, inverted) =>
    if (code : ℤ) = d.last_code ∧ inverted = d.last_inverted then
      ({ d with confirm_count := d.confirm_count + 1 },
        (if d.confirm_count + 1 = 2 then [(code, inverted)] else []) ++
        (if d.confirm_count + 1 > 2 then [(code, inverted)] else []))
    else
      ({ d with last_code := (code : ℤ), last_inverted := inverted,
                confirm_count := 1 }, [])
  | none =>
    if d.confirm_count > 0 then
      ({ d with confirm_count := d.confirm_count - 1 }, [])
    else (d, [])

/-- `filtered = alpha * x + (1 - alpha) * lp_state` (line 221). -/
def filteredOf (d : dcs_decoder) (x : ℚ) : ℚ :=
  d.lp_alpha * x + (1 - d.lp_alpha) * d.lp_state

/-- Zero-crossing clock recovery (lines 228-237): on a sign change
between the previous and current filtered sample, nudge the phase by
5% of a bit period, later if the crossing falls in the first half of
the bit, earlier otherwise. -/
def nudgedPhase (d : dcs_decoder) (filtered : ℚ) : ℚ :=
  if (decide (d.lp_prev < 0)) != (decide (filtered < 0)) then
    if d.bit_phase < d.samples_per_bit * 0.5 then
      d.bit_phase + d.samples_per_bit * 0.05
    else
      d.bit_phase - d.samples_per_bit * 0.05
  else d.bit_phase

/-- The per-sample work before the bit-boundary check (lines 221-242):
filter, clock nudge, accumulate, advance the phase by one sample. -/
def preBoundary (d : dcs_decoder) (x : ℚ) : dcs_decoder :=
  { d with lp_state := filteredOf d x
           bit_phase := nudgedPhase d (filteredOf d x) + 1
           lp_prev := filteredOf d x
           bit_accum := d.bit_accum + filteredOf d x }

/-- Bit decision: positive accumulated average is a 1 (line 249). -/
def sliceBit (accum : ℚ) : ℕ := if accum > 0 then 1 else 0

/-- The shifted `window_a` at a bit boundary:
`window_a = (window_a >> 1) | (bit << 22)` (line 253). -/
def boundaryWA (d : dcs_decoder) : ℕ :=
  (d.window_a >>> 1) ||| (sliceBit d.bit_accum <<< 22)

/-- The shifted `window_b` at a bit boundary:
`window_b = ((window_b << 1) | bit) & 0x7FFFFF` (line 254). -/
def boundaryWB (d : dcs_decoder) : ℕ :=
  ((d.window_b <<< 1) ||| sliceBit d.bit_accum) &&& 0x7FFFFF

/-- The state mutations at a bit boundary before the decode attempt:
wrap the phase, clear the accumulator, shift both windows. -/
def boundaryState (d : dcs_decoder) : dcs_decoder :=
  { d with bit_phase := d.bit_phase - d.samples_per_bit
           bit_accum := 0
           window_a := boundaryWA d
           window_b := boundaryWB d }

/-- The bit-boundary block (lines 245-290): when the phase reaches a
bit period, wrap the phase, slice the bit, shift both windows, run the
four-candidate Golay decode and the confirmation update. -/
def boundaryStep (d : dcs_decoder) : dcs_decoder × List (ℕ × Bool) :=
  if d.samples_per_bit ≤ d.bit_phase then
    confirmStep (tryFour (boundaryWA d) (boundaryWB d)) (boundaryState d)
  else (d, [])

/-- One iteration of the sample loop in `dcs_decoder_process_samples`. -/
def process_one_sample (d : dcs_decoder) (x : ℚ) :
    dcs_decoder × List (ℕ × Bool) :=
  boundaryStep (preBoundary d x)

/-- `dcs_decoder_process_samples` (lines 212-292) over a sample list;
returns the final state and the concatenated callback invocations. -/
def dcs_decoder_process_samples :
    dcs_decoder → List ℚ → dcs_decoder × List (ℕ × Bool)
  | d, [] => (d, [])
  | d, x :: xs =>
    ((dcs_decoder_process_samples (process_one_sample d x).1 xs).1,
      (process_one_sample d x).2 ++
        (dcs_decoder_process_samples (process_one_sample d x).1 xs).2)

/-- Decoder states reachable from a fresh decoder by any sequence of
`dcs_decoder_process_samples` calls. -/
inductive Reachable (a spb : ℚ) : dcs_decoder → Prop where
  | init : Reachable a spb (dcs_decoder_new a spb)
  | step (d : dcs_decoder) (xs : List ℚ) (h : Reachable a spb d) :
      Reachable a spb (dcs_decoder_process_samples d xs).1

/-! ### Squelch gate state (dcs_squelch_ff_impl.h / .cc) -/

/-- The mutable fields of `dcs_squelch_ff_impl`, with the owned decoder. -/
structure dcs_squelch_ff_state where
  d_target_code : ℤ
  d_target_inverted : Bool
  d_squelch_open : Bool
  d_tail_samples : ℤ
  d_tail_samples_max : ℤ
  d_dcs_decoder : dcs_decoder

/-- `set_target_code` (dcs_squelch_ff_impl.cc lines 106-111): store the
new target, close the gate, zero the tail counter. -/
def set_target_code (s : dcs_squelch_ff_state) (code : ℤ) (inverted : Bool) :
    dcs_squelch_ff_state :=
  { s with d_target_code := code
           d_target_inverted := inverted
           d_squelch_open := false
           d_tail_samples := 0 }

/-! ### Evaluation helpers

Counting and accumulating over the 2048-element pattern list must be
kernel-reducible without deep recursion, so the accumulating loops below
force their accumulator at every step via `forceGuard` (the trivially
true test `g ≤ g` makes the evaluator normalize `g` in constant stack). -/

def forceGuard (g : ℕ) (x : α) : α := if g ≤ g then x else x

/-- Tail-style counter with forced accumulator; equals `acc + l.countP p`. -/
def countTrue (p : ℕ → Bool) : List ℕ → ℕ → ℕ
  | [], acc => acc
  | x :: l, acc =>
    let a2 := if p x then acc + 1 else acc
    forceGuard a2 (countTrue p l a2)

/-- OR-accumulated bitmask of the syndromes of a pattern list. -/
def maskFold : List ℕ → ℕ → ℕ
  | [], m => m
  | e :: l, m =>
    let m2 := m ||| (1 <<< golay_syndrome e)
    forceGuard m2 (maskFold l m2)

/-! ### Basic lemmas about the helpers -/

theorem forceGuard_eq (g : ℕ) (x : α) : forceGuard g x = x := ite_self x

theorem countTrue_eq (p : ℕ → Bool) (l : List ℕ) (acc : ℕ) :
    countTrue p l acc = acc + l.countP p := by
  induction l generalizing acc with
  | nil => simp [countTrue]
  | cons x l ih =>
    rw [countTrue, forceGuard_eq, ih, List.countP_cons]
    by_cases h : p x = true <;> simp [h] <;> omega


theorem maskFold_testBit (l : List ℕ) (m i : ℕ) :
    (maskFold l m).testBit i = true ↔
      m.testBit i = true ∨ ∃ e ∈ l, golay_syndrome e = i := by
  induction l generalizing m with
  | nil => simp [maskFold]
  | cons e l ih =>
    rw [maskFold, forceGuard_eq, ih]
    constructor
    · rintro (h | h)
      · rw [Nat.testBit_or, Bool.or_eq_true, Nat.one_shiftLeft,
          Nat.testBit_two_pow] at h
        rcases h with h | h
        · exact Or.inl h
        · exact Or.inr ⟨e, List.mem_cons_self e l, of_decide_eq_true h⟩
      · obtain ⟨e', he', hs⟩ := h
        exact Or.inr ⟨e', List.mem_cons_of_mem e he', hs⟩
    · rintro (h | ⟨e', he', hs⟩)
      · left
        rw [Nat.testBit_or, Bool.or_eq_true]
        exact Or.inl h
      · rcases List.mem_cons.1 he' with rfl | he'
        · left
          rw [Nat.testBit_or, Bool.or_eq_true, Nat.one_shiftLeft,
            Nat.testBit_two_pow]
          exact Or.inr (decide_eq_true hs)
        · exact Or.inr ⟨e', he', hs⟩

/-! ### XOR-linearity of the syndrome -/

theorem xor_mix (a b c d : ℕ) :
    (a ^^^ b) ^^^ (c ^^^ d) = (a ^^^ c) ^^^ (b ^^^ d) := by
  rw [Nat.xor_assoc, ← Nat.xor_assoc b c d, Nat.xor_comm b c,
    Nat.xor_assoc c b d, ← Nat.xor_assoc]

theorem golayStep_eq (reg i : ℕ) :
    golayStep reg i = reg ^^^ (if reg.testBit i then GOLAY_POLY <<< (i - 11) else 0) := by
  unfold golayStep
  cases h : reg.testBit i <;> simp [h]

theorem golayStep_xor (a b i : ℕ) :
    golayStep (a ^^^ b) i = golayStep a i ^^^ golayStep b i := by
  rw [golayStep_eq, golayStep_eq, golayStep_eq, Nat.testBit_xor, xor_mix]
  congr 1
  cases ha : a.testBit i <;> cases hb : b.testBit i <;> simp

theorem golayDivLoop_xor (n a b : ℕ) :
    golayDivLoop (a ^^^ b) n = golayDivLoop a n ^^^ golayDivLoop b n := by
  induction n generalizing a b with
  | zero => rfl
  | succ n ih => simp only [golayDivLoop]; rw [golayStep_xor, ih]

theorem golay_syndrome_xor (a b : ℕ) :
    golay_syndrome (a ^^^ b) = golay_syndrome a ^^^ golay_syndrome b := by
  unfold golay_syndrome
  rw [Nat.and_xor_distrib_right, golayDivLoop_xor, Nat.and_xor_distrib_right]

theorem golay_syndrome_lt (w : ℕ) : golay_syndrome w < 2048 :=
  lt_of_le_of_lt Nat.and_le_right (by norm_num)

theorem golayDivLoop_of_lt (n r : ℕ) (h : r < 2 ^ 11) : golayDivLoop r n = r := by
  induction n with
  | zero => rfl
  | succ n ih =>
    have hbit : r.testBit (11 + n) = false :=
      Nat.testBit_lt_two_pow
        (lt_of_lt_of_le h (Nat.pow_le_pow_right (by norm_num) (by omega)))
    rw [golayDivLoop, golayStep, hbit]
    simpa using ih

theorem golay_syndrome_of_lt (r : ℕ) (h : r < 2 ^ 11) : golay_syndrome r = r := by
  have h23 : r &&& 0x7FFFFF = r := by
    have e : (0x7FFFFF : ℕ) = 2 ^ 23 - 1 := by norm_num
    rw [e, Nat.and_pow_two_sub_one_eq_mod]
    exact Nat.mod_eq_of_lt (lt_trans h (by norm_num))
  have h11 : r &&& 0x7FF = r := by
    have e : (0x7FF : ℕ) = 2 ^ 11 - 1 := by norm_num
    rw [e, Nat.and_pow_two_sub_one_eq_mod]
    exact Nat.mod_eq_of_lt h
  unfold golay_syndrome
  rw [h23, golayDivLoop_of_lt 12 r h, h11]

theorem golay_syndrome_zero : golay_syndrome 0 = 0 := by decide

/-! ### Kernel-checked finite facts about the pattern list -/

set_option maxRecDepth 10000 in
theorem maskFold_allPatterns : maskFold allPatterns 0 = 2 ^ 2048 - 1 := by
  decide

set_option maxRecDepth 10000 in
theorem countTrue_allPatterns : countTrue (fun _ => true) allPatterns 0 = 2048 := by
  decide

set_option maxRecDepth 10000 in
theorem countTrue_hweight0 : countTrue (fun e => hweight e == 0) allPatterns 0 = 1 := by
  decide

set_option maxRecDepth 10000 in
theorem countTrue_hweight1 : countTrue (fun e => hweight e == 1) allPatterns 0 = 23 := by
  decide

set_option maxRecDepth 10000 in
theorem countTrue_hweight2 : countTrue (fun e => hweight e == 2) allPatterns 0 = 253 := by
  decide

set_option maxRecDepth 10000 in
theorem countTrue_hweight3 : countTrue (fun e => hweight e == 3) allPatterns 0 = 1771 := by
  decide

set_option maxRecDepth 10000 in
theorem allPatterns_lt : (allPatterns.all (fun e => e < 2 ^ 23)) = true := by
  decide

theorem allPatterns_length : allPatterns.length = 2048 := by
  have h := countTrue_eq (fun _ => true) allPatterns 0
  rw [countTrue_allPatterns] at h
  simpa [List.countP_true] using h.symm

/-! ### Access lemmas for the table array -/

theorem tblGet_setD_self (t : Array ℕ) (i v : ℕ) (h : i < t.size) :
    tblGet (t.setD i v) i = v := by
  unfold tblGet
  rw [Array.getD_eq_get?, Array.getElem?_setD_eq t h v]
  rfl

theorem tblGet_setD_ne (t : Array ℕ) (i j v : ℕ) (hne : j ≠ i) :
    tblGet (t.setD i v) j = tblGet t j := by
  unfold tblGet
  rw [Array.getD_eq_get?, Array.getD_eq_get?]
  unfold Array.setD
  split
  · rw [Array.getElem?_set_ne _ _ _ (fun h => hne h.symm)]
  · rfl

theorem tblGet_mkArray (n s : ℕ) :
    tblGet (Array.mkArray n GOLAY_SYN_INVALID) s = GOLAY_SYN_INVALID := by
  unfold tblGet Array.getD
  split
  · simp [Array.get_eq_getElem, Array.getElem_mkArray]
  · rfl

theorem size_tblInsert (t : Array ℕ) (e : ℕ) : (tblInsert t e).size = t.size := by
  simp only [tblInsert]
  split
  · exact Array.size_setD ..
  · rfl

theorem size_foldl_tblInsert (L : List ℕ) (t : Array ℕ) :
    (L.foldl tblInsert t).size = t.size := by
  induction L generalizing t with
  | nil => rfl
  | cons e L ih => rw [List.foldl_cons, ih, size_tblInsert]

/-- First-writer-wins characterization of the insert loops: the final
value of slot `s` is the value it already had if occupied, else the
first pattern in `L` whose syndrome is `s` (or the sentinel). -/
theorem tblGet_foldl_tblInsert (L : List ℕ) (t : Array ℕ) (s : ℕ)
    (ht : t.size = 2048) (hL : ∀ e ∈ L, e ≠ GOLAY_SYN_INVALID) :
    tblGet (L.foldl tblInsert t) s =
      if tblGet t s = GOLAY_SYN_INVALID then
        ((L.find? (fun e => golay_syndrome e == s)).getD GOLAY_SYN_INVALID)
      else tblGet t s := by
  induction L generalizing t with
  | nil => by_cases h : tblGet t s = GOLAY_SYN_INVALID <;> simp [h]
  | cons e L ih =>
    rw [List.foldl_cons]
    have hsize : (tblInsert t e).size = 2048 := (size_tblInsert t e).trans ht
    have he : e ≠ GOLAY_SYN_INVALID := hL e (List.mem_cons_self e L)
    have hL' : ∀ x ∈ L, x ≠ GOLAY_SYN_INVALID :=
      fun x hx => hL x (List.mem_cons_of_mem e hx)
    rw [ih (tblInsert t e) hsize hL']
    by_cases hps : golay_syndrome e = s
    · subst hps
      by_cases h0 : tblGet t (golay_syndrome e) = GOLAY_SYN_INVALID
      · have hins : tblInsert t e = t.setD (golay_syndrome e) e := by
          unfold tblInsert
          rw [if_pos h0]
        have hget : tblGet (tblInsert t e) (golay_syndrome e) = e := by
          rw [hins, tblGet_setD_self t _ e (by rw [ht]; exact golay_syndrome_lt e)]
        rw [hget, if_neg he, if_pos h0, List.find?_cons_of_pos _ (by simp)]
        rfl
      · have hins : tblInsert t e = t := by
          unfold tblInsert
          rw [if_neg h0]
        rw [hins, if_neg h0, if_neg h0]
    · have hget : tblGet (tblInsert t e) s = tblGet t s := by
        unfold tblInsert
        split
        · exact tblGet_setD_ne t _ s e (fun h => hps h.symm)
        · rfl
      rw [hget, List.find?_cons_of_neg _ (by simpa using hps)]

/-! ### Every syndrome is covered, each by a unique pattern -/

theorem coverage (s : ℕ) (hs : s < 2048) :
    ∃ e ∈ allPatterns, golay_syndrome e = s := by
  have hb : (maskFold allPatterns 0).testBit s = true := by
    rw [maskFold_allPatterns, Nat.testBit_two_pow_sub_one]
    exact decide_eq_true hs
  rcases (maskFold_testBit allPatterns 0 s).1 hb with h0 | hex
  · simp at h0
  · exact hex

theorem syn_map_perm :
    (List.range 2048).Perm (allPatterns.map golay_syndrome) := by
  have hsub : List.range 2048 ⊆ allPatterns.map golay_syndrome := by
    intro s hs
    rw [List.mem_range] at hs
    obtain ⟨e, he, hse⟩ := coverage s hs
    exact List.mem_map.2 ⟨e, he, hse⟩
  have hsp : List.Subperm (List.range 2048) (allPatterns.map golay_syndrome) :=
    List.subperm_of_subset (List.nodup_range 2048) hsub
  refine hsp.perm_of_length_le ?_
  rw [List.length_map, allPatterns_length, List.length_range]

theorem syn_map_nodup : (allPatterns.map golay_syndrome).Nodup :=
  syn_map_perm.nodup (List.nodup_range 2048)

theorem find?_syn (L : List ℕ) (e : ℕ)
    (hN : (L.map golay_syndrome).Nodup) (he : e ∈ L) :
    L.find? (fun x => golay_syndrome x == golay_syndrome e) = some e := by
  induction L with
  | nil => cases he
  | cons a L ih =>
    rw [List.map_cons, List.nodup_cons] at hN
    by_cases ha : a = e
    · subst ha
      exact List.find?_cons_of_pos _ (by simp)
    · have heL : e ∈ L := by
        rcases List.mem_cons.1 he with h | h
        · exact absurd h.symm ha
        · exact h
      have hne : golay_syndrome a ≠ golay_syndrome e := by
        intro hcontra
        exact hN.1 (hcontra ▸ List.mem_map.2 ⟨e, heL, rfl⟩)
      rw [List.find?_cons_of_neg _ (by simpa using hne)]
      exact ih hN.2 heL

theorem allErr_ne_sentinel : ∀ x ∈ allErr, x ≠ GOLAY_SYN_INVALID := by
  intro x hx hcontra
  have hlt : x < 2 ^ 23 :=
    of_decide_eq_true
      (List.all_eq_true.1 allPatterns_lt x (List.mem_cons_of_mem 0 hx))
  have hinv : GOLAY_SYN_INVALID = 4294967295 := rfl
  omega

theorem table_init_size :
    ((Array.mkArray 2048 GOLAY_SYN_INVALID).setD 0 0).size = 2048 := by
  simp

theorem table_init_get (s : ℕ) :
    tblGet ((Array.mkArray 2048 GOLAY_SYN_INVALID).setD 0 0) s =
      if s = 0 then 0 else GOLAY_SYN_INVALID := by
  by_cases h : s = 0
  · subst h
    rw [if_pos rfl]
    exact tblGet_setD_self _ 0 0 (by simp)
  · rw [if_neg h, tblGet_setD_ne _ 0 s 0 h, tblGet_mkArray]

theorem build_eq_foldl :
    build_syndrome_table =
      allErr.foldl tblInsert ((Array.mkArray 2048 GOLAY_SYN_INVALID).setD 0 0) := by
  simp [build_syndrome_table, allErr, List.foldl_append]

/-- Every correctable pattern is stored at its own syndrome. -/
theorem table_lookup (e : ℕ) (he : e ∈ allPatterns) :
    tblGet build_syndrome_table (golay_syndrome e) = e := by
  have hchar := tblGet_foldl_tblInsert allErr
    ((Array.mkArray 2048 GOLAY_SYN_INVALID).setD 0 0) (golay_syndrome e)
    table_init_size allErr_ne_sentinel
  rcases List.mem_cons.1 he with rfl | heErr
  · rw [build_eq_foldl, golay_syndrome_zero] at *
    rw [hchar, table_init_get 0, if_pos rfl]
    norm_num [GOLAY_SYN_INVALID]
  · have hs0 : golay_syndrome e ≠ 0 := by
      intro hc
      have hN := syn_map_nodup
      rw [show allPatterns = 0 :: allErr from rfl, List.map_cons,
        List.nodup_cons] at hN
      exact hN.1 (List.mem_map.2 ⟨e, heErr, hc.trans golay_syndrome_zero.symm⟩)
    rw [build_eq_foldl, hchar, table_init_get, if_neg hs0, if_pos rfl,
      find?_syn allErr e ?_ heErr]
    · rfl
    · have hN := syn_map_nodup
      rw [show allPatterns = 0 :: allErr from rfl, List.map_cons,
        List.nodup_cons] at hN
      exact hN.2

/-! ### Every word of weight at most 3 occurs in the pattern list -/

theorem mem_weight1 (i : ℕ) (h : i < 23) : (1 <<< i) ∈ weight1 :=
  List.mem_map.2 ⟨i, List.mem_range.2 h, rfl⟩

theorem mem_weight2 (i j : ℕ) (hij : i < j) (hj : j < 23) :
    ((1 <<< i) ||| (1 <<< j)) ∈ weight2 :=
  List.mem_flatMap.2 ⟨i, List.mem_range.2 (by omega),
    List.mem_map.2 ⟨j,
      List.mem_filter.2 ⟨List.mem_range.2 hj, by simpa using hij⟩, rfl⟩⟩

theorem mem_weight3 (i j k : ℕ) (hij : i < j) (hjk : j < k) (hk : k < 23) :
    ((1 <<< i) ||| (1 <<< j) ||| (1 <<< k)) ∈ weight3 :=
  List.mem_flatMap.2 ⟨i, List.mem_range.2 (by omega),
    List.mem_flatMap.2 ⟨j,
      List.mem_filter.2 ⟨List.mem_range.2 (by omega), by simpa using hij⟩,
      List.mem_map.2 ⟨k,
        List.mem_filter.2 ⟨List.mem_range.2 hk, by simpa using hjk⟩, rfl⟩⟩⟩

theorem testBit_orFold (L : List ℕ) (n : ℕ) :
    ((L.foldr (fun i acc => (1 <<< i) ||| acc) 0).testBit n = true) ↔ n ∈ L := by
  induction L with
  | nil => simp
  | cons a L ih =>
    rw [List.foldr_cons, Nat.testBit_or, Bool.or_eq_true, Nat.one_shiftLeft,
      Nat.testBit_two_pow, ih, List.mem_cons]
    simp [eq_comm]

theorem eq_orFold (e : ℕ) (he : e < 2 ^ 23) :
    e = ((List.range 23).filter (fun i => e.testBit i)).foldr
      (fun i acc => (1 <<< i) ||| acc) 0 := by
  apply Nat.eq_of_testBit_eq
  intro n
  by_cases hn : n < 23
  · cases h : e.testBit n
    · rw [eq_comm, ← Bool.not_eq_true, testBit_orFold, List.mem_filter]
      intro hc
      rw [hc.2] at h
      cases h
    · rw [eq_comm, testBit_orFold, List.mem_filter, List.mem_range]
      exact ⟨hn, h⟩
  · have h1 : e.testBit n = false :=
      Nat.testBit_lt_two_pow
        (lt_of_lt_of_le he (Nat.pow_le_pow_right (by norm_num) (by omega)))
    rw [h1, eq_comm, ← Bool.not_eq_true, testBit_orFold, List.mem_filter,
      List.mem_range]
    intro hc
    exact hn hc.1

theorem pattern_mem (e : ℕ) (he : e < 2 ^ 23) (hw : hweight e ≤ 3) :
    e ∈ allPatterns := by
  have hsorted : ((List.range 23).filter (fun i => e.testBit i)).Pairwise (· < ·) :=
    (List.pairwise_lt_range 23).filter _
  have hbound : ∀ i ∈ (List.range 23).filter (fun i => e.testBit i), i < 23 :=
    fun i hi => List.mem_range.1 (List.mem_filter.1 hi).1
  have hlen : ((List.range 23).filter (fun i => e.testBit i)).length ≤ 3 := hw
  have heq := eq_orFold e he
  rcases hL : (List.range 23).filter (fun i => e.testBit i) with
    _ | ⟨a, _ | ⟨b, _ | ⟨c, _ | ⟨d, tl⟩⟩⟩⟩
  · rw [hL] at heq
    rw [show e = 0 from heq]
    exact List.mem_cons_self 0 allErr
  · rw [hL] at heq hbound
    rw [List.foldr_cons, List.foldr_nil, Nat.or_zero] at heq
    rw [heq]
    exact List.mem_cons_of_mem 0
      (List.mem_append.2 (Or.inl (List.mem_append.2 (Or.inl
        (mem_weight1 a (hbound a (List.mem_cons_self a [])))))))
  · rw [hL] at heq hbound hsorted
    rw [List.foldr_cons, List.foldr_cons, List.foldr_nil, Nat.or_zero] at heq
    rw [heq]
    have hab : a < b := (List.pairwise_cons.1 hsorted).1 b (List.mem_cons_self b [])
    have hb : b < 23 := hbound b (List.mem_cons_of_mem a (List.mem_cons_self b []))
    exact List.mem_cons_of_mem 0
      (List.mem_append.2 (Or.inl (List.mem_append.2 (Or.inr
        (mem_weight2 a b hab hb)))))
  · rw [hL] at heq hbound hsorted
    rw [List.foldr_cons, List.foldr_cons, List.foldr_cons, List.foldr_nil,
      Nat.or_zero, ← Nat.or_assoc] at heq
    rw [heq]
    have h1 := List.pairwise_cons.1 hsorted
    have h2 := List.pairwise_cons.1 h1.2
    have hab : a < b := h1.1 b (List.mem_cons_self b [c])
    have hbc : b < c := h2.1 c (List.mem_cons_self c [])
    have hc : c < 23 := hbound c
      (List.mem_cons_of_mem a (List.mem_cons_of_mem b (List.mem_cons_self c [])))
    exact List.mem_cons_of_mem 0
      (List.mem_append.2 (Or.inr (mem_weight3 a b c hab hbc hc)))
  · rw [hL] at hlen
    simp at hlen

/-- A weight-(at most)-3 word is stored in the table at its own syndrome. -/
theorem table_corrects (e : ℕ) (he : e < 2 ^ 23) (hw : hweight e ≤ 3) :
    tblGet build_syndrome_table (golay_syndrome e) = e :=
  table_lookup e (pattern_mem e he hw)

theorem allPatterns_ne_sentinel : ∀ e ∈ allPatterns, e ≠ GOLAY_SYN_INVALID := by
  intro e he
  rcases List.mem_cons.1 he with rfl | h
  · norm_num [GOLAY_SYN_INVALID]
  · exact allErr_ne_sentinel e h

theorem countP_map_lookup (f t : ℕ → ℕ) (p : ℕ → Bool) (L : List ℕ)
    (h : ∀ x ∈ L, t (f x) = x) :
    (L.map f).countP (fun s => p (t s)) = L.countP p := by
  induction L with
  | nil => rfl
  | cons a L ih =>
    rw [List.map_cons, List.countP_cons, List.countP_cons,
      h a (List.mem_cons_self a L),
      ih (fun x hx => h x (List.mem_cons_of_mem a hx))]

theorem countP_table_eq (w : ℕ) :
    (List.range 2048).countP
        (fun s => hweight (tblGet build_syndrome_table s) == w) =
      countTrue (fun e => hweight e == w) allPatterns 0 := by
  rw [countTrue_eq, Nat.zero_add, syn_map_perm.countP_eq]
  exact countP_map_lookup golay_syndrome (tblGet build_syndrome_table)
    (fun e => hweight e == w) allPatterns table_lookup

/-- C1: for every 23-bit codeword `c` (zero syndrome) and every error
pattern `e` of Hamming weight at most 3, the table built by
`build_syndrome_table` maps `golay_syndrome (c ^^^ e)` to `e`, and
XOR-ing that entry back into `c ^^^ e` recovers `c`. -/
theorem golay_table_corrects_words (c e : ℕ)
    (hc : c < 2 ^ 23) (hsc : golay_syndrome c = 0)
    (he : e < 2 ^ 23) (hw : hweight e ≤ 3) :
    tblGet build_syndrome_table (golay_syndrome (c ^^^ e)) = e ∧
    (c ^^^ e) ^^^ tblGet build_syndrome_table (golay_syndrome (c ^^^ e)) = c := by
  have ht : tblGet build_syndrome_table (golay_syndrome (c ^^^ e)) = e := by
    rw [golay_syndrome_xor, hsc, Nat.zero_xor]
    exact table_corrects e he hw
  refine ⟨ht, ?_⟩
  rw [ht, Nat.xor_assoc, Nat.xor_self, Nat.xor_zero]

theorem golay_table_corrects_words_witness :
    (0 : ℕ) < 2 ^ 23 ∧ golay_syndrome 0 = 0 ∧
    (5 : ℕ) < 2 ^ 23 ∧ hweight 5 ≤ 3 ∧
    (tblGet build_syndrome_table (golay_syndrome (0 ^^^ 5)) = 5 ∧
      (0 ^^^ 5) ^^^ tblGet build_syndrome_table (golay_syndrome (0 ^^^ 5)) = 0) :=
  ⟨by norm_num, by decide, by norm_num, by decide,
    golay_table_corrects_words 0 5 (by norm_num) (by decide) (by norm_num)
      (by decide)⟩

/-- C2: after construction the table has 2048 slots, none holds the
sentinel, syndrome 0 holds the all-zero pattern, and the stored patterns
number 1, 23, 253, 1771 by Hamming weight 0, 1, 2, 3. -/
theorem syndrome_table_complete :
    build_syndrome_table.size = 2048 ∧
    (∀ s, s < 2048 → tblGet build_syndrome_table s ≠ GOLAY_SYN_INVALID) ∧
    tblGet build_syndrome_table 0 = 0 ∧
    (List.range 2048).countP
      (fun s => hweight (tblGet build_syndrome_table s) == 0) = 1 ∧
    (List.range 2048).countP
      (fun s => hweight (tblGet build_syndrome_table s) == 1) = 23 ∧
    (List.range 2048).countP
      (fun s => hweight (tblGet build_syndrome_table s) == 2) = 253 ∧
    (List.range 2048).countP
      (fun s => hweight (tblGet build_syndrome_table s) == 3) = 1771 := by
  refine ⟨?_, ?_, ?_, ?_, ?_, ?_, ?_⟩
  · rw [build_eq_foldl, size_foldl_tblInsert, table_init_size]
  · intro s hs
    obtain ⟨e, he, hse⟩ := coverage s hs
    rw [← hse, table_lookup e he]
    exact allPatterns_ne_sentinel e he
  · have h := table_lookup 0 (List.mem_cons_self 0 allErr)
    rwa [golay_syndrome_zero] at h
  · rw [countP_table_eq]; exact countTrue_hweight0
  · rw [countP_table_eq]; exact countTrue_hweight1
  · rw [countP_table_eq]; exact countTrue_hweight2
  · rw [countP_table_eq]; exact countTrue_hweight3

theorem syndrome_table_complete_witness :
    tblGet build_syndrome_table 7 ≠ GOLAY_SYN_INVALID :=
  syndrome_table_complete.2.1 7 (by norm_num)

/-- C5: the systematic 23-bit word carrying a 12-bit message in bits
22..11 and the long-division remainder of `m·x^11` by `0xC75` in bits
10..0 has zero syndrome. -/
theorem golay_encode_syndrome_zero (m : ℕ) (hm : m < 2 ^ 12) :
    golay_syndrome (golay_encode m) = 0 := by
  have hr : golay_syndrome (m <<< 11) < 2 ^ 11 := by
    have := golay_syndrome_lt (m <<< 11)
    norm_num at this ⊢
    omega
  have hdisj : (m <<< 11) ||| golay_syndrome (m <<< 11) =
      (m <<< 11) ^^^ golay_syndrome (m <<< 11) := by
    apply Nat.eq_of_testBit_eq
    intro i
    rw [Nat.testBit_or, Nat.testBit_xor]
    by_cases hi : i < 11
    · have h1 : (m <<< 11).testBit i = false := by
        rw [Nat.testBit_shiftLeft]
        simp [show ¬ 11 ≤ i by omega]
      rw [h1]
      cases (golay_syndrome (m <<< 11)).testBit i <;> rfl
    · have h2 : (golay_syndrome (m <<< 11)).testBit i = false :=
        Nat.testBit_lt_two_pow
          (lt_of_lt_of_le hr (Nat.pow_le_pow_right (by norm_num) (by omega)))
      rw [h2]
      cases (m <<< 11).testBit i <;> rfl
  rw [golay_encode, hdisj, golay_syndrome_xor, golay_syndrome_of_lt _ hr,
    Nat.xor_self]

theorem golay_encode_syndrome_zero_witness :
    (3 : ℕ) < 2 ^ 12 ∧ golay_syndrome (golay_encode 3) = 0 :=
  ⟨by norm_num, golay_encode_syndrome_zero 3 (by norm_num)⟩

/-! ### Decode facts needed on silent input -/

theorem table_slot0 : tblGet build_syndrome_table 0 = 0 := by
  have h := table_lookup 0 (List.mem_cons_self 0 allErr)
  rwa [golay_syndrome_zero] at h

theorem try_decode_word_def (word : ℕ) (pol : Bool) :
    try_decode_word word pol =
      if golay_syndrome word < 2048 ∧
          tblGet build_syndrome_table (golay_syndrome word) ≠ GOLAY_SYN_INVALID then
        if (((word ^^^ tblGet build_syndrome_table (golay_syndrome word)) >>> 11)
              &&& 0xFFF) &&& 0xE00 = 0 ∧
            is_valid_dcs_code
              (((word ^^^ tblGet build_syndrome_table (golay_syndrome word)) >>> 11)
                &&& 0xFFF) then
          some ((((word ^^^ tblGet build_syndrome_table (golay_syndrome word)) >>> 11)
            &&& 0xFFF), pol)
        else none
      else none := rfl

theorem try_decode_zero (pol : Bool) : try_decode_word 0 pol = none := by
  rw [try_decode_word_def, golay_syndrome_zero, table_slot0]
  split
  · split
    · rename_i h2
      exact absurd h2.2 (by decide)
    · rfl
  · rfl

theorem try_decode_ones (pol : Bool) : try_decode_word 0x7FFFFF pol = none := by
  have hsyn : golay_syndrome 0x7FFFFF = 0 := by decide
  rw [try_decode_word_def, hsyn, table_slot0]
  split
  · split
    · rename_i h2
      exact absurd h2.1 (by decide)
    · rfl
  · rfl

theorem compl23_zero : compl23 0 = 0x7FFFFF := by decide

theorem tryFour_eq_none (wa wb : ℕ)
    (h1 : try_decode_word wa false = none)
    (h2 : try_decode_word (compl23 wa) true = none)
    (h3 : try_decode_word wb false = none)
    (h4 : try_decode_word (compl23 wb) true = none) :
    tryFour wa wb = none := by
  unfold tryFour
  rw [h1, h2, h3, h4]

theorem tryFour_zero : tryFour 0 0 = none := by
  have h2 : try_decode_word (compl23 0) true = none := by
    rw [compl23_zero]
    exact try_decode_ones true
  exact tryFour_eq_none 0 0 (try_decode_zero false) h2 (try_decode_zero false) h2

/-! ### Field preservation of the confirmation update -/

theorem confirmStep_fields (f : Option (ℕ × Bool)) (d : dcs_decoder) :
    (confirmStep f d).1.lp_alpha = d.lp_alpha ∧
    (confirmStep f d).1.lp_state = d.lp_state ∧
    (confirmStep f d).1.lp_prev = d.lp_prev ∧
    (confirmStep f d).1.samples_per_bit = d.samples_per_bit ∧
    (confirmStep f d).1.bit_phase = d.bit_phase ∧
    (confirmStep f d).1.bit_accum = d.bit_accum ∧
    (confirmStep f d).1.window_a = d.window_a ∧
    (confirmStep f d).1.window_b = d.window_b := by
  rcases f with _ | ⟨c, p⟩ <;>
    simp only [confirmStep] <;>
    split <;>
    simp

theorem confirmStep_cc_nonneg (f : Option (ℕ × Bool)) (d : dcs_decoder)
    (h : 0 ≤ d.confirm_count) : 0 ≤ (confirmStep f d).1.confirm_count := by
  rcases f with _ | ⟨c, p⟩ <;>
    simp only [confirmStep] <;>
    split <;>
    simp <;>
    omega

theorem confirmStep_none_snd (d : dcs_decoder) : (confirmStep none d).2 = [] := by
  simp only [confirmStep]
  split <;> rfl

/-! ### Silent input: the zero state is invariant and emits nothing -/

theorem boundaryStep_silent (d : dcs_decoder)
    (h1 : d.lp_state = 0) (h2 : d.lp_prev = 0) (h3 : d.bit_accum = 0)
    (h4 : d.window_a = 0) (h5 : d.window_b = 0) :
    ((boundaryStep d).1.lp_state = 0 ∧ (boundaryStep d).1.lp_prev = 0 ∧
      (boundaryStep d).1.bit_accum = 0 ∧ (boundaryStep d).1.window_a = 0 ∧
      (boundaryStep d).1.window_b = 0) ∧ (boundaryStep d).2 = [] := by
  unfold boundaryStep
  split
  · have hbit : sliceBit d.bit_accum = 0 := by
      rw [h3]
      simp [sliceBit]
    have hwa : boundaryWA d = 0 := by
      simp [boundaryWA, h4, hbit]
    have hwb : boundaryWB d = 0 := by
      simp [boundaryWB, h5, hbit]
    rw [hwa, hwb, tryFour_zero]
    have hcf := confirmStep_fields none (boundaryState d)
    refine ⟨⟨?_, ?_, ?_, ?_, ?_⟩, confirmStep_none_snd _⟩
    · rw [hcf.2.1]
      simpa [boundaryState] using h1
    · rw [hcf.2.2.1]
      simpa [boundaryState] using h2
    · rw [hcf.2.2.2.2.2.1]
      simp [boundaryState]
    · rw [hcf.2.2.2.2.2.2.1]
      simpa [boundaryState] using hwa
    · rw [hcf.2.2.2.2.2.2.2]
      simpa [boundaryState] using hwb
  · exact ⟨⟨h1, h2, h3, h4, h5⟩, rfl⟩

theorem process_one_sample_silent (d : dcs_decoder)
    (h1 : d.lp_state = 0) (h2 : d.lp_prev = 0) (h3 : d.bit_accum = 0)
    (h4 : d.window_a = 0) (h5 : d.window_b = 0) :
    ((process_one_sample d 0).1.lp_state = 0 ∧
      (process_one_sample d 0).1.lp_prev = 0 ∧
      (process_one_sample d 0).1.bit_accum = 0 ∧
      (process_one_sample d 0).1.window_a = 0 ∧
      (process_one_sample d 0).1.window_b = 0) ∧
    (process_one_sample d 0).2 = [] := by
  have hf : filteredOf d 0 = 0 := by
    simp [filteredOf, h1]
  unfold process_one_sample
  apply boundaryStep_silent
  · simp [preBoundary, hf]
  · simp [preBoundary, hf]
  · simp [preBoundary, hf, h3]
  · simp [preBoundary, h4]
  · simp [preBoundary, h5]

theorem process_samples_silent (n : ℕ) :
    ∀ d : dcs_decoder, d.lp_state = 0 → d.lp_prev = 0 → d.bit_accum = 0 →
      d.window_a = 0 → d.window_b = 0 →
      (dcs_decoder_process_samples d (List.replicate n 0)).2 = [] := by
  induction n with
  | zero => intro d _ _ _ _ _; rfl
  | succ n ih =>
    intro d h1 h2 h3 h4 h5
    rw [List.replicate_succ]
    have hone := process_one_sample_silent d h1 h2 h3 h4 h5
    simp only [dcs_decoder_process_samples]
    rw [hone.2, List.nil_append]
    exact ih (process_one_sample d 0).1 hone.1.1 hone.1.2.1 hone.1.2.2.1
      hone.1.2.2.2.1 hone.1.2.2.2.2

/-- C6: a freshly created decoder fed any number of zero samples never
invokes the callback, for any parameters in the operating envelope. -/
theorem silence_no_events (a spb : ℚ) (n : ℕ)
    (ha0 : 0 < a) (ha1 : a < 1) (hspb : 2 ≤ spb) :
    (dcs_decoder_process_samples (dcs_decoder_new a spb)
      (List.replicate n 0)).2 = [] :=
  process_samples_silent n (dcs_decoder_new a spb) rfl rfl rfl rfl rfl

theorem silence_no_events_witness :
    0 < (1/2 : ℚ) ∧ (1/2 : ℚ) < 1 ∧ 2 ≤ (120 : ℚ) ∧
    (dcs_decoder_process_samples (dcs_decoder_new (1/2) 120)
      (List.replicate 3 0)).2 = [] :=
  ⟨by norm_num, by norm_num, by norm_num,
    silence_no_events (1/2) 120 3 (by norm_num) (by norm_num) (by norm_num)⟩

/-- C10: processing a concatenation equals processing the pieces in
sequence, with events concatenated in order; an empty call is a no-op. -/
theorem process_samples_append (d : dcs_decoder) (s1 s2 : List ℚ) :
    dcs_decoder_process_samples d (s1 ++ s2) =
      ((dcs_decoder_process_samples
          (dcs_decoder_process_samples d s1).1 s2).1,
        (dcs_decoder_process_samples d s1).2 ++
          (dcs_decoder_process_samples
            (dcs_decoder_process_samples d s1).1 s2).2) ∧
    dcs_decoder_process_samples d [] = (d, []) := by
  refine ⟨?_, rfl⟩
  induction s1 generalizing d with
  | nil => simp [dcs_decoder_process_samples]
  | cons x xs ih =>
    simp only [List.cons_append, dcs_decoder_process_samples, List.append_eq]
    rw [ih ((process_one_sample d x).1)]
    simp [List.append_assoc]

/-! ### Reachable-state invariants -/

theorem sliceBit_le_one (q : ℚ) : sliceBit q ≤ 1 := by
  unfold sliceBit
  split <;> norm_num

theorem boundaryWA_lt (d : dcs_decoder) (h : d.window_a < 2 ^ 23) :
    boundaryWA d < 2 ^ 23 := by
  unfold boundaryWA
  apply Nat.or_lt_two_pow
  · have hle : d.window_a >>> 1 ≤ d.window_a := by
      rw [Nat.shiftRight_eq_div_pow]
      exact Nat.div_le_self _ _
    exact lt_of_le_of_lt hle h
  · have h1 : sliceBit d.bit_accum <<< 22 = sliceBit d.bit_accum * 2 ^ 22 :=
      Nat.shiftLeft_eq _ _
    have h2 : sliceBit d.bit_accum * 2 ^ 22 ≤ 1 * 2 ^ 22 :=
      Nat.mul_le_mul_right _ (sliceBit_le_one _)
    rw [h1]
    exact lt_of_le_of_lt h2 (by norm_num)

theorem boundaryWB_lt (d : dcs_decoder) : boundaryWB d < 2 ^ 23 :=
  lt_of_le_of_lt Nat.and_le_right (by norm_num)

theorem nudgedPhase_bounds (d : dcs_decoder) (f : ℚ)
    (hspb : 2 ≤ d.samples_per_bit)
    (h0 : 0 ≤ d.bit_phase) (h1 : d.bit_phase < d.samples_per_bit) :
    0 ≤ nudgedPhase d f ∧ nudgedPhase d f < d.samples_per_bit := by
  unfold nudgedPhase
  split
  · split
    · rename_i hhalf
      constructor <;> linarith
    · rename_i hhalf
      push_neg at hhalf
      constructor <;> linarith
  · exact ⟨h0, h1⟩

theorem inv_one_sample (spb : ℚ) (d : dcs_decoder) (x : ℚ)
    (hs : d.samples_per_bit = spb)
    (hwa : d.window_a < 2 ^ 23) (hwb : d.window_b < 2 ^ 23)
    (hcc : 0 ≤ d.confirm_count)
    (hph : 2 ≤ spb → 0 ≤ d.bit_phase ∧ d.bit_phase < spb) :
    (process_one_sample d x).1.samples_per_bit = spb ∧
    (process_one_sample d x).1.window_a < 2 ^ 23 ∧
    (process_one_sample d x).1.window_b < 2 ^ 23 ∧
    0 ≤ (process_one_sample d x).1.confirm_count ∧
    (2 ≤ spb → 0 ≤ (process_one_sample d x).1.bit_phase ∧
      (process_one_sample d x).1.bit_phase < spb) := by
  have hps : (preBoundary d x).samples_per_bit = spb := hs
  have hpwa : (preBoundary d x).window_a = d.window_a := rfl
  have hpwb : (preBoundary d x).window_b = d.window_b := rfl
  have hpcc : (preBoundary d x).confirm_count = d.confirm_count := rfl
  have hpph : 2 ≤ spb → 1 ≤ (preBoundary d x).bit_phase ∧
      (preBoundary d x).bit_phase < spb + 1 := by
    intro h2
    have hn := nudgedPhase_bounds d (filteredOf d x) (hs ▸ h2)
      (hph h2).1 (hs ▸ (hph h2).2)
    rw [hs] at hn
    have : (preBoundary d x).bit_phase =
        nudgedPhase d (filteredOf d x) + 1 := rfl
    rw [this]
    constructor <;> linarith [hn.1, hn.2]
  unfold process_one_sample boundaryStep
  split
  · rename_i hcond
    have hcf := confirmStep_fields
      (tryFour (boundaryWA (preBoundary d x)) (boundaryWB (preBoundary d x)))
      (boundaryState (preBoundary d x))
    refine ⟨?_, ?_, ?_, ?_, ?_⟩
    · rw [hcf.2.2.2.1]
      exact hps
    · rw [hcf.2.2.2.2.2.2.1]
      show boundaryWA (preBoundary d x) < 2 ^ 23
      exact boundaryWA_lt _ (hpwa ▸ hwa)
    · rw [hcf.2.2.2.2.2.2.2]
      exact boundaryWB_lt _
    · apply confirmStep_cc_nonneg
      show 0 ≤ (preBoundary d x).confirm_count
      rw [hpcc]
      exact hcc
    · intro h2
      rw [hcf.2.2.2.2.1]
      have hbp : (boundaryState (preBoundary d x)).bit_phase =
          (preBoundary d x).bit_phase - (preBoundary d x).samples_per_bit := rfl
      rw [hbp, hps]
      have := hpph h2
      rw [hps] at hcond
      constructor <;> linarith [this.1, this.2, hcond]
  · rename_i hcond
    rw [hps] at hcond
    push_neg at hcond
    refine ⟨hps, hpwa ▸ hwa, hpwb ▸ hwb, hpcc ▸ hcc, ?_⟩
    intro h2
    exact ⟨by linarith [(hpph h2).1], hcond⟩

theorem inv_samples (spb : ℚ) (xs : List ℚ) :
    ∀ d : dcs_decoder,
      d.samples_per_bit = spb →
      d.window_a < 2 ^ 23 → d.window_b < 2 ^ 23 →
      0 ≤ d.confirm_count →
      (2 ≤ spb → 0 ≤ d.bit_phase ∧ d.bit_phase < spb) →
      (dcs_decoder_process_samples d xs).1.samples_per_bit = spb ∧
      (dcs_decoder_process_samples d xs).1.window_a < 2 ^ 23 ∧
      (dcs_decoder_process_samples d xs).1.window_b < 2 ^ 23 ∧
      0 ≤ (dcs_decoder_process_samples d xs).1.confirm_count ∧
      (2 ≤ spb → 0 ≤ (dcs_decoder_process_samples d xs).1.bit_phase ∧
        (dcs_decoder_process_samples d xs).1.bit_phase < spb) := by
  induction xs with
  | nil => intro d h1 h2 h3 h4 h5; exact ⟨h1, h2, h3, h4, h5⟩
  | cons x xs ih =>
    intro d h1 h2 h3 h4 h5
    have hone := inv_one_sample spb d x h1 h2 h3 h4 h5
    simp only [dcs_decoder_process_samples]
    exact ih (process_one_sample d x).1 hone.1 hone.2.1 hone.2.2.1
      hone.2.2.2.1 hone.2.2.2.2

theorem reachable_inv (a spb : ℚ) (d : dcs_decoder) (h : Reachable a spb d) :
    d.samples_per_bit = spb ∧
    d.window_a < 2 ^ 23 ∧ d.window_b < 2 ^ 23 ∧
    0 ≤ d.confirm_count ∧
    (2 ≤ spb → 0 ≤ d.bit_phase ∧ d.bit_phase < spb) := by
  induction h with
  | init =>
    refine ⟨rfl, by show (0:ℕ) < 2 ^ 23; norm_num,
      by show (0:ℕ) < 2 ^ 23; norm_num, le_refl 0, ?_⟩
    intro h2
    constructor
    · exact le_refl 0
    · show (0 : ℚ) < spb
      linarith
  | step d xs hr ih =>
    exact inv_samples spb xs d ih.1 ih.2.1 ih.2.2.1 ih.2.2.2.1 ih.2.2.2.2

/-- C3: confirmation-state transitions at a bit boundary — no decode
decrements toward zero and emits nothing; a different valid decode
installs the new pair with counter 1 and emits nothing; a matching
valid decode increments and emits exactly once iff the incremented
counter reaches 2; the counter is non-negative in every reachable
state. -/
theorem confirmation_transitions :
    (∀ (a spb : ℚ) (d : dcs_decoder), Reachable a spb d →
      0 ≤ d.confirm_count) ∧
    (∀ d : dcs_decoder, 0 ≤ d.confirm_count →
      confirmStep none d =
        ({ d with confirm_count := max (d.confirm_count - 1) 0 }, [])) ∧
    (∀ (d : dcs_decoder) (c : ℕ) (p : Bool),
      ¬((c : ℤ) = d.last_code ∧ p = d.last_inverted) →
      confirmStep (some (c, p)) d =
        ({ d with last_code := (c : ℤ), last_inverted := p, confirm_count := 1 },
          [])) ∧
    (∀ (d : dcs_decoder) (c : ℕ) (p : Bool),
      (c : ℤ) = d.last_code → p = d.last_inverted →
      confirmStep (some (c, p)) d =
        ({ d with confirm_count := d.confirm_count + 1 },
          if 2 ≤ d.confirm_count + 1 then [(c, p)] else [])) := by
  refine ⟨?_, ?_, ?_, ?_⟩
  · intro a spb d h
    exact (reachable_inv a spb d h).2.2.2.1
  · intro d h
    simp only [confirmStep]
    split
    · rename_i hgt
      have hmax : max (d.confirm_count - 1) 0 = d.confirm_count - 1 := by
        omega
      rw [hmax]
    · rename_i hle
      have hmax : max (d.confirm_count - 1) 0 = d.confirm_count := by
        omega
      rw [hmax]
  · intro d c p h
    simp only [confirmStep]
    rw [if_neg h]
  · intro d c p h1 h2
    simp only [confirmStep]
    rw [if_pos ⟨h1, h2⟩]
    by_cases he : d.confirm_count + 1 = 2
    · rw [if_pos he, if_neg (by omega), if_pos (by omega)]
      rfl
    · by_cases hg : d.confirm_count + 1 > 2
      · rw [if_neg he, if_pos hg, if_pos (by omega)]
        rfl
      · rw [if_neg he, if_neg hg, if_neg (by omega)]
        rfl

theorem confirmation_transitions_witness :
    0 ≤ (dcs_decoder_new (1/2) 120).confirm_count ∧
    confirmStep none (dcs_decoder_new (1/2) 120) =
      ({ dcs_decoder_new (1/2) 120 with
          confirm_count :=
            max ((dcs_decoder_new (1/2) 120).confirm_count - 1) 0 }, []) :=
  ⟨confirmation_transitions.1 (1/2) 120 _ Reachable.init,
    confirmation_transitions.2.1 (dcs_decoder_new (1/2) 120) (le_refl 0)⟩

/-- C7: in every reachable state both windows fit in 23 bits; at a bit
boundary the windows are shifted by the formulas of lines 253-254; and
the decode attempt is the first success over exactly the four candidates
`window_a`, its masked complement, `window_b`, its masked complement,
with complement candidates reporting `inverted = true` and direct ones
`inverted = false`. -/
theorem window_invariants :
    (∀ (a spb : ℚ) (d : dcs_decoder), Reachable a spb d →
      d.window_a < 2 ^ 23 ∧ d.window_b < 2 ^ 23) ∧
    (∀ d : dcs_decoder, d.samples_per_bit ≤ d.bit_phase →
      (boundaryStep d).1.window_a =
        (d.window_a >>> 1) ||| (sliceBit d.bit_accum <<< 22) ∧
      (boundaryStep d).1.window_b =
        ((d.window_b <<< 1) ||| sliceBit d.bit_accum) &&& 0x7FFFFF) ∧
    (∀ wa wb : ℕ, tryFour wa wb =
      (candidateList wa wb).findSome? (fun c => try_decode_word c.1 c.2)) ∧
    (∀ (w c : ℕ) (b i : Bool), try_decode_word w b = some (c, i) → i = b) := by
  refine ⟨?_, ?_, ?_, ?_⟩
  · intro a spb d h
    exact ⟨(reachable_inv a spb d h).2.1, (reachable_inv a spb d h).2.2.1⟩
  · intro d h
    unfold boundaryStep
    rw [if_pos h]
    have hcf := confirmStep_fields (tryFour (boundaryWA d) (boundaryWB d))
      (boundaryState d)
    constructor
    · rw [hcf.2.2.2.2.2.2.1]
      rfl
    · rw [hcf.2.2.2.2.2.2.2]
      rfl
  · intro wa wb
    unfold tryFour candidateList
    rw [List.findSome?_cons]
    dsimp only
    cases h1 : try_decode_word wa false with
    | some r => rfl
    | none =>
      rw [List.findSome?_cons]
      dsimp only
      cases h2 : try_decode_word (compl23 wa) true with
      | some r => rfl
      | none =>
        rw [List.findSome?_cons]
        dsimp only
        cases h3 : try_decode_word wb false with
        | some r => rfl
        | none =>
          rw [List.findSome?_cons]
          dsimp only
          cases h4 : try_decode_word (compl23 wb) true with
          | some r => rfl
          | none => rfl
  · intro w c b i h
    rw [try_decode_word_def] at h
    split at h
    · split at h
      · injection h with h1
        injection h1 with h2 h3
        exact h3.symm
      · cases h
    · cases h

theorem window_invariants_witness :
    (dcs_decoder_new (1/2) 120).window_a < 2 ^ 23 ∧
    (dcs_decoder_new (1/2) 120).window_b < 2 ^ 23 :=
  window_invariants.1 (1/2) 120 _ Reachable.init

/-- C8: with at least two samples per bit, the bit phase of every
reachable state lies in `[0, samples_per_bit)`; within one sample period
(after the nudge and the increment) it lies in `[0, samples_per_bit + 1)`
and is never negative; and a bit-boundary reset lands back in
`[0, samples_per_bit)`. -/
theorem bit_phase_bounds (a spb : ℚ) (hspb : 2 ≤ spb) (d : dcs_decoder)
    (hr : Reachable a spb d) :
    (0 ≤ d.bit_phase ∧ d.bit_phase < spb) ∧
    (∀ x : ℚ, 0 ≤ (preBoundary d x).bit_phase ∧
      (preBoundary d x).bit_phase < spb + 1) ∧
    (∀ x : ℚ, spb ≤ (preBoundary d x).bit_phase →
      0 ≤ (boundaryStep (preBoundary d x)).1.bit_phase ∧
      (boundaryStep (preBoundary d x)).1.bit_phase < spb) := by
  have hinv := reachable_inv a spb d hr
  have hph := hinv.2.2.2.2 hspb
  have hs : d.samples_per_bit = spb := hinv.1
  have hpre : ∀ x : ℚ, 0 ≤ (preBoundary d x).bit_phase ∧
      (preBoundary d x).bit_phase < spb + 1 := by
    intro x
    have hn := nudgedPhase_bounds d (filteredOf d x) (hs ▸ hspb) hph.1
      (hs ▸ hph.2)
    rw [hs] at hn
    have he : (preBoundary d x).bit_phase =
        nudgedPhase d (filteredOf d x) + 1 := rfl
    rw [he]
    constructor <;> linarith [hn.1, hn.2]
  refine ⟨hph, hpre, ?_⟩
  intro x hx
  have hps : (preBoundary d x).samples_per_bit = spb := hs
  unfold boundaryStep
  rw [if_pos (by rw [hps]; exact hx)]
  have hcf := confirmStep_fields
    (tryFour (boundaryWA (preBoundary d x)) (boundaryWB (preBoundary d x)))
    (boundaryState (preBoundary d x))
  rw [hcf.2.2.2.2.1]
  have hbp : (boundaryState (preBoundary d x)).bit_phase =
      (preBoundary d x).bit_phase - (preBoundary d x).samples_per_bit := rfl
  rw [hbp, hps]
  have h1 := (hpre x).2
  constructor <;> linarith

theorem bit_phase_bounds_witness :
    (2 : ℚ) ≤ 120 ∧
    (0 ≤ (dcs_decoder_new (1/2) 120).bit_phase ∧
      (dcs_decoder_new (1/2) 120).bit_phase < 120) :=
  ⟨by norm_num,
    (bit_phase_bounds (1/2) 120 (by norm_num) _ Reachable.init).1⟩

/-- C9: `set_target_code` installs the new (code, polarity) target,
closes the gate, zeroes the tail counter, and leaves the tail length
and the owned decoder (all its fields) unchanged. -/
theorem set_target_code_frame (s : dcs_squelch_ff_state) (code : ℤ)
    (inverted : Bool) :
    (set_target_code s code inverted).d_target_code = code ∧
    (set_target_code s code inverted).d_target_inverted = inverted ∧
    (set_target_code s code inverted).d_squelch_open = false ∧
    (set_target_code s code inverted).d_tail_samples = 0 ∧
    (set_target_code s code inverted).d_tail_samples_max =
      s.d_tail_samples_max ∧
    (set_target_code s code inverted).d_dcs_decoder = s.d_dcs_decoder :=
  ⟨rfl, rfl, rfl, rfl, rfl, rfl⟩

/-- C4 counterexample: decimal 23 is not a recognized DCS code.  The
user-facing designator "D023" is octal and corresponds to decimal 19;
23 itself is absent from `DCS_VALID_CODES`. -/
theorem dcs_code_23_not_recognized : is_valid_dcs_code 23 = false := by
  decide

set_option maxRecDepth 10000 in
/-- C4 (amended): the recognized-code set has exactly 105 members
(`DCS_VALID_CODES` is duplicate-free, and exactly 105 values in
[0, 511] are accepted), all members lie in [0, 511], it contains
19, 21, 25, 43, 114 and 265, and it contains none of 412, 732 and 23. -/
theorem dcs_valid_codes_set :
    DCS_VALID_CODES.length = 105 ∧
    DCS_VALID_CODES.Nodup ∧
    DCS_VALID_CODES.all (fun c => c < 512) = true ∧
    (List.range 512).countP (fun c => is_valid_dcs_code c) = 105 ∧
    is_valid_dcs_code 19 = true ∧ is_valid_dcs_code 21 = true ∧
    is_valid_dcs_code 25 = true ∧ is_valid_dcs_code 43 = true ∧
    is_valid_dcs_code 114 = true ∧ is_valid_dcs_code 265 = true ∧
    is_valid_dcs_code 412 = false ∧ is_valid_dcs_code 732 = false ∧
    is_valid_dcs_code 23 = false := by
  have hcount : (List.range 512).countP (fun c => is_valid_dcs_code c) = 105 := by
    have h1 : countTrue (fun c => is_valid_dcs_code c) (List.range 512) 0 = 105 := by
      decide
    have h2 := countTrue_eq (fun c => is_valid_dcs_code c) (List.range 512) 0
    omega
  exact ⟨by decide, by decide, by decide, hcount, by decide, by decide,
    by decide, by decide, by decide, by decide, by decide, by decide,
    by decide⟩
